import Mathlib

/-!
Verification of the ics iCalendar decoder (package ics, the current
variant using time.Time values; the repository also carries an older
duplicate using pointer timestamps, which the spec excludes from scope).

The byte stream handed to Decode is modelled as the list of its physical
lines, exactly as bufio.Reader.ReadLine delivers them: each entry is the
content of one physical line with the terminator removed, an empty entry
is a blank line, and the end of the list is end of input.  ReadLine
reports isPrefix when a physical line exceeds the default 4096-byte
buffer of bufio.NewReader; the model reproduces this with lineLimit.
Strings are modelled as lists of characters.
-/

namespace Ics

/-- Character-list strings, the model of Go strings. -/
abbrev Str := List Char

/-- The 4096-byte default buffer of bufio.NewReader: ReadLine reports a
line of this length or more as isPrefix, which Decode turns into the
unexpected-long-line error. -/
def lineLimit : Nat := 4096

/-- Error kinds of the decoder, one constructor per error site of the
source (io.ErrUnexpectedEOF, the errors.New sites, and the time.Parse
failure which the spec calls a ValueFormatError). -/
inductive DecodeErr
  | unexpectedEOF
  | longLine
  | blankLine
  | noColon
  | notVCalendar
  | unexpectedEndValue
  | badTime
deriving DecidableEq

/-- Timestamp fields as produced by time.Parse of layout
20060102T150405Z: year, month, day, hour, minute, second, all UTC. -/
structure DateTime where
  year : Nat
  month : Nat
  day : Nat
  hour : Nat
  minute : Nat
  second : Nat
deriving DecidableEq

/-- The zero time.Time value: January 1, year 1, 00:00:00 UTC. -/
def zeroTime : DateTime := ⟨1, 1, 1, 0, 0, 0⟩

/-- Models time.Time.IsZero: true exactly on the zero time value. -/
def DateTime.isZero (t : DateTime) : Bool := t = zeroTime

/-- Leap year rule of the Gregorian calendar, as in Go package time. -/
def leapYear (y : Nat) : Bool := y % 4 = 0 && (y % 100 != 0 || y % 400 = 0)

/-- Days in a given month of a given year, as validated by time.Parse. -/
def daysIn (mo y : Nat) : Nat :=
  if mo = 2 then (if leapYear y then 29 else 28)
  else if mo = 4 ∨ mo = 6 ∨ mo = 9 ∨ mo = 11 then 30 else 31

/-- Days from 0000-01-01 to the first day of year y in the proleptic
Gregorian calendar (year 0 is a leap year). -/
def daysBeforeYear (y : Nat) : Nat :=
  if y = 0 then 0 else 365 * y + 1 + (y - 1) / 4 - (y - 1) / 100 + (y - 1) / 400

/-- Days from the first of January to the first of the given month. -/
def daysBeforeMonth (y mo : Nat) : Nat :=
  (match mo with
   | 1 => 0 | 2 => 31 | 3 => 59 | 4 => 90 | 5 => 120 | 6 => 151
   | 7 => 181 | 8 => 212 | 9 => 243 | 10 => 273 | 11 => 304 | _ => 334)
  + (if 3 ≤ mo && leapYear y then 1 else 0)

/-- Seconds since 0000-01-01T00:00:00 UTC.  Go time.Time stores an
absolute second count and Before compares it; the constant offset
between the two epochs cancels in the comparison. -/
def DateTime.absSecs (t : DateTime) : Nat :=
  (((daysBeforeYear t.year + daysBeforeMonth t.year t.month + (t.day - 1)) * 24
    + t.hour) * 60 + t.minute) * 60 + t.second

/-- Models time.Time.Before on the UTC timestamps produced by
decodeTime: comparison of absolute seconds. -/
def DateTime.before (t u : DateTime) : Bool := t.absSecs < u.absSecs

/-- Numeric value of a digit character. -/
def digVal (c : Char) : Nat := c.toNat - 48

/-- Decimal digit test. -/
def isDigit (c : Char) : Bool := 48 ≤ c.toNat && c.toNat ≤ 57

/-- Models decodeTime, that is time.Parse with the fixed layout
20060102T150405Z: exactly four year digits, two month digits, two day
digits, a literal T, two digits each for hour, minute and second, and a
literal Z, with the range checks time.Parse performs (month 1-12, day
within the month, hour 0-23, minute and second 0-59).  Any mismatch,
including missing or extra characters, is a parse error, modelled as
none. -/
def decodeTime (v : Str) : Option DateTime :=
  match v with
  | [y1, y2, y3, y4, m1, m2, d1, d2, tc, h1, h2, i1, i2, s1, s2, zc] =>
    if tc = 'T' && zc = 'Z'
        && [y1, y2, y3, y4, m1, m2, d1, d2, h1, h2, i1, i2, s1, s2].all isDigit then
      let y := ((digVal y1 * 10 + digVal y2) * 10 + digVal y3) * 10 + digVal y4
      let mo := digVal m1 * 10 + digVal m2
      let d := digVal d1 * 10 + digVal d2
      let h := digVal h1 * 10 + digVal h2
      let mi := digVal i1 * 10 + digVal i2
      let s := digVal s1 * 10 + digVal s2
      if 1 ≤ mo && mo ≤ 12 && 1 ≤ d && d ≤ daysIn mo y
          && h ≤ 23 && mi ≤ 59 && s ≤ 59 then
        some ⟨y, mo, d, h, mi, s⟩
      else none
    else none
  | _ => none

/-- One strip of the single leading continuation space, as in the
source line: if b[0] is a space then b = b[1:].  The empty case never
arises, since blank lines fail before the strip. -/
def stripLead : Str → Str
  | [] => []
  | c :: t => if c = ' ' then t else c :: t

/-- Models r.Peek(1) at the start of the next physical line: true when
a next line exists and its first byte is a space (the peek of an empty
next line sees its terminator byte, never a space; the peek at end of
input fails, which also ends the folding loop). -/
def contFollows : List Str → Bool
  | next :: _ => next.head? = some ' '
  | [] => false

/-- The folding loop of decodeLine: read a physical line (end of input
there is the unexpected-EOF error, an overlong line the long-line
error, an empty line the blank-line error), strip one leading space,
append to the buffer, and keep folding while the peeked next byte is a
space. -/
def readFolded : List Str → Str → Except DecodeErr (Str × List Str)
  | [], _ => .error .unexpectedEOF
  | l :: rest, buf =>
    if lineLimit ≤ l.length then .error .longLine
    else if l = [] then .error .blankLine
    else
      let buf' := buf ++ stripLead l
      if contFollows rest then readFolded rest buf' else .ok (buf', rest)

/-- Split at the first colon, as strings.SplitN with separator ":" and
n = 2: none when the string holds no colon (SplitN then yields a single
piece and decodeLine fails). -/
def splitFirstColon : Str → Option (Str × Str)
  | [] => none
  | c :: t =>
    if c = ':' then some ([], t)
    else
      match splitFirstColon t with
      | none => none
      | some (k, v) => some (c :: k, v)

/-- Models decodeLine: assemble one logical line by the folding loop,
then split it at the first colon into key and value; a line with no
colon is the bad-line error.  Returns the key, the value and the
remaining physical lines. -/
def decodeLine (lines : List Str) : Except DecodeErr (Str × Str × List Str) :=
  match readFolded lines [] with
  | .error e => .error e
  | .ok (s, rest) =>
    match splitFirstColon s with
    | none => .error .noColon
    | some (k, v) => .ok (k, v, rest)

/-- The Event struct of the source: UID, Start, End, Summary, Location,
Description, with Go zero values as defaults (new(Event)). -/
structure Event where
  UID : Str := []
  Start : DateTime := zeroTime
  End : DateTime := zeroTime
  Summary : Str := []
  Location : Str := []
  Description : Str := []
deriving DecidableEq

/-- The zero Event allocated by new(Event) at the start of decodeEvent. -/
def emptyEvent : Event := {}

/-- The Calendar struct; its single field is the event slice (named
events here because the Go field shares its name with the Event type). -/
structure Calendar where
  events : List Event
deriving DecidableEq

/-- The eventList.Less comparator: an event with a zero Start is less
than everything, an event with a set Start is never less than one with
a zero Start, and two set events compare by Before. -/
def eventLess (a b : Event) : Bool :=
  if a.Start.isZero then true
  else if b.Start.isZero then false
  else a.Start.before b.Start

/-- Ordered insertion with eventLess, the building block of the model
of sort.Sort. -/
def insertEv (x : Event) : List Event → List Event
  | [] => [x]
  | y :: ys => if eventLess x y then x :: y :: ys else y :: insertEv x ys

/-- Models sort.Sort(eventList(...)): an unstable comparison sort with
eventLess, realized as insertion sort.  The comparator is total across
the zero/non-zero split and a strict order on non-zero starts, so any
comparison sort yields a sequence with the zero-start events first and
the rest ascending; only the relative order inside the zero-start group
is implementation defined, and the claims leave it unconstrained. -/
def sortEvents : List Event → List Event
  | [] => []
  | x :: xs => insertEv x (sortEvents xs)

/-- Result of Decode: a Calendar, an error with no calendar (Go returns
nil alongside every error), or the nil-pointer panic that Go raises in
sort.Sort when c is still nil at the break. -/
inductive Outcome
  | ok (c : Calendar)
  | fail (e : DecodeErr)
  | panicNil
deriving DecidableEq

/-- Key and marker literals of the source. -/
def sBEGIN : Str := "BEGIN".toList

/-- The END key literal. -/
def sEND : Str := "END".toList

/-- The VCALENDAR marker literal. -/
def sVCALENDAR : Str := "VCALENDAR".toList

/-- The VEVENT marker literal. -/
def sVEVENT : Str := "VEVENT".toList

/-- The UID key literal. -/
def sUID : Str := "UID".toList

/-- The DTSTART key literal. -/
def sDTSTART : Str := "DTSTART".toList

/-- The DTEND key literal. -/
def sDTEND : Str := "DTEND".toList

/-- The SUMMARY key literal. -/
def sSUMMARY : Str := "SUMMARY".toList

/-- The LOCATION key literal. -/
def sLOCATION : Str := "LOCATION".toList

/-- The DESCRIPTION key literal. -/
def sDESCRIPTION : Str := "DESCRIPTION".toList

/-- The loop of decodeEvent, with explicit fuel so that the definition
is structural and computes; each iteration consumes at least one
physical line, so any fuel above the line count is enough and the
fuel-out branch is never reached from the decodeEvent wrapper.  The
switch mirrors the source: END returns the event or fails on another
END value, UID, DTSTART, DTEND, SUMMARY, LOCATION, DESCRIPTION assign
the field (a timestamp parse failure is returned at the next loop
entry, which the early return here models), and any other key falls
through to the next iteration unchanged. -/
def decodeEventLoop : Nat → Event → List Str → Except DecodeErr (Event × List Str)
  | 0, _, _ => .error .unexpectedEOF
  | fuel + 1, e, lines =>
    match decodeLine lines with
    | .error err => .error err
    | .ok (key, value, rest) =>
      if key = sEND then
        if value = sVEVENT then .ok (e, rest) else .error .unexpectedEndValue
      else if key = sUID then decodeEventLoop fuel { e with UID := value } rest
      else if key = sDTSTART then
        match decodeTime value with
        | none => .error .badTime
        | some t => decodeEventLoop fuel { e with Start := t } rest
      else if key = sDTEND then
        match decodeTime value with
        | none => .error .badTime
        | some t => decodeEventLoop fuel { e with End := t } rest
      else if key = sSUMMARY then decodeEventLoop fuel { e with Summary := value } rest
      else if key = sLOCATION then decodeEventLoop fuel { e with Location := value } rest
      else if key = sDESCRIPTION then decodeEventLoop fuel { e with Description := value } rest
      else decodeEventLoop fuel e rest

/-- Models decodeEvent: run the event loop on a fresh zero Event with
enough fuel for the whole remaining stream. -/
def decodeEvent (lines : List Str) : Except DecodeErr (Event × List Str) :=
  decodeEventLoop (lines.length + 1) emptyEvent lines

/-- The loop of Decode, fuelled like the event loop.  On BEGIN with no
calendar yet, anything but VCALENDAR is the missing-BEGIN error,
otherwise the calendar is allocated; on BEGIN:VEVENT with a calendar
the event decoder runs and its event is appended; END:VCALENDAR leaves
the loop, where a still-nil calendar makes sort.Sort dereference a nil
pointer (panicNil) and otherwise the events are sorted and returned;
every other line is ignored. -/
def decodeCalLoop : Nat → Option (List Event) → List Str → Outcome
  | 0, _, _ => .fail .unexpectedEOF
  | fuel + 1, c, lines =>
    match decodeLine lines with
    | .error e => .fail e
    | .ok (key, value, rest) =>
      if key = sBEGIN then
        if c = none ∧ value ≠ sVCALENDAR then .fail .notVCalendar
        else
          let evs := match c with | none => [] | some evs => evs
          if value = sVEVENT then
            match decodeEvent rest with
            | .error e => .fail e
            | .ok (ev, rest') => decodeCalLoop fuel (some (evs ++ [ev])) rest'
          else decodeCalLoop fuel (some evs) rest
      else if key = sEND ∧ value = sVCALENDAR then
        match c with
        | none => .panicNil
        | some evs => .ok ⟨sortEvents evs⟩
      else decodeCalLoop fuel c rest

/-- Models Decode on a stream of physical lines. -/
def Decode (lines : List Str) : Outcome :=
  decodeCalLoop (lines.length + 1) none lines

/-- The ordering the spec asserts of a decoded event sequence: an
earlier event either has a zero (unset) Start, or both events have a
set Start and the starts are nondecreasing.  In particular no event
with a set Start ever precedes one with an unset Start. -/
def evLe (a b : Event) : Prop :=
  a.Start.isZero = true ∨ (b.Start.isZero = false ∧ a.Start.absSecs ≤ b.Start.absSecs)

/-- A physical line that is consumable without error and is neither a
continuation line nor an END line nor a failing timestamp assignment:
nonempty, not starting with a space, below the reader buffer, holding a
colon, with a key other than END, and with a value that parses whenever
the key is DTSTART or DTEND.  A stream of such lines keeps a VEVENT
block open until the input ends. -/
def goodNonEnd (l : Str) : Bool :=
  !(l.isEmpty) && l.head? != some ' ' && l.length < lineLimit &&
    (match splitFirstColon l with
     | none => false
     | some (k, v) =>
       k != sEND && (!(k = sDTSTART || k = sDTEND) || (decodeTime v).isSome))

/-- Insertion of an element at a position of a list; past the end it
appends at the end. -/
def insertAt (x : α) : Nat → List α → List α
  | 0, l => x :: l
  | _ + 1, [] => [x]
  | n + 1, y :: ys => y :: insertAt x n ys

/-- One logical line rendered as the physical line KEY:VALUE. -/
def renderLine (k v : Str) : Str := k ++ ':' :: v

/-- Calendar body items: a calendar-level property line, or a VEVENT
block given by its property lines (key and value pairs). -/
inductive Item
  | junk (k v : Str)
  | event (ps : List (Str × Str))

/-- Physical lines of one item. -/
def renderItem : Item → List Str
  | .junk k v => [renderLine k v]
  | .event ps => "BEGIN:VEVENT".toList :: (ps.map fun p => renderLine p.1 p.2) ++ ["END:VEVENT".toList]

/-- Physical lines of a whole calendar: the envelope around the items. -/
def renderDoc (items : List Item) : List Str :=
  "BEGIN:VCALENDAR".toList :: (items.flatMap renderItem ++ ["END:VCALENDAR".toList])

/-- The field assignment one event property line performs, mirroring
the switch of decodeEvent; unrecognized keys leave the event unchanged. -/
def applyProp (e : Event) (k v : Str) : Event :=
  if k = sUID then { e with UID := v }
  else if k = sDTSTART then
    match decodeTime v with
    | none => e
    | some t => { e with Start := t }
  else if k = sDTEND then
    match decodeTime v with
    | none => e
    | some t => { e with End := t }
  else if k = sSUMMARY then { e with Summary := v }
  else if k = sLOCATION then { e with Location := v }
  else if k = sDESCRIPTION then { e with Description := v }
  else e

/-- The event a list of property lines builds from the zero event. -/
def evalEvent (ps : List (Str × Str)) : Event :=
  ps.foldl (fun e p => applyProp e p.1 p.2) emptyEvent

/-- The events of a calendar body, one per event block. -/
def eventsOf (items : List Item) : List Event :=
  items.flatMap fun it =>
    match it with
    | .junk _ _ => []
    | .event ps => [evalEvent ps]

/-- A key that renders and reads back: no colon and no leading space. -/
def wfKey (k : Str) : Prop := ':' ∉ k ∧ k.head? ≠ some ' '

/-- A renderable logical line: well formed key and a rendered length
below the reader buffer. -/
def wfLine (k v : Str) : Prop := wfKey k ∧ k.length + 1 + v.length < lineLimit

/-- A calendar-level line the decoder ignores: well formed with a key
other than BEGIN and END. -/
def wfJunkItem (k v : Str) : Prop := wfLine k v ∧ k ≠ sBEGIN ∧ k ≠ sEND

/-- An event-level line the decoder ignores: well formed with a key
that is none of END, UID, DTSTART, DTEND, SUMMARY, LOCATION,
DESCRIPTION (BEGIN is among the ignored keys inside an event). -/
def wfEventJunk (k v : Str) : Prop :=
  wfLine k v ∧ k ≠ sEND ∧ k ≠ sUID ∧ k ≠ sDTSTART ∧ k ≠ sDTEND
    ∧ k ≠ sSUMMARY ∧ k ≠ sLOCATION ∧ k ≠ sDESCRIPTION

/-- A well formed event property line: well formed, not an END, and
with a parsing value when the key is DTSTART or DTEND. -/
def wfProp (p : Str × Str) : Prop :=
  wfLine p.1 p.2 ∧ p.1 ≠ sEND ∧ ((p.1 = sDTSTART ∨ p.1 = sDTEND) → (decodeTime p.2).isSome = true)

/-- Well formed items: ignorable junk lines and event blocks of well
formed property lines. -/
def wfItem : Item → Prop
  | .junk k v => wfJunkItem k v
  | .event ps => ∀ p ∈ ps, wfProp p

/-- A well formed calendar body. -/
def wfDoc (items : List Item) : Prop := ∀ it ∈ items, wfItem it

instance (k : Str) : Decidable (wfKey k) := by unfold wfKey; infer_instance

instance (k v : Str) : Decidable (wfLine k v) := by unfold wfLine; infer_instance

instance (k v : Str) : Decidable (wfJunkItem k v) := by unfold wfJunkItem; infer_instance

instance (k v : Str) : Decidable (wfEventJunk k v) := by unfold wfEventJunk; infer_instance

instance (p : Str × Str) : Decidable (wfProp p) := by unfold wfProp; infer_instance

instance : (it : Item) → Decidable (wfItem it)
  | .junk k v => inferInstanceAs (Decidable (wfJunkItem k v))
  | .event ps => inferInstanceAs (Decidable (∀ p ∈ ps, wfProp p))

instance (items : List Item) : Decidable (wfDoc items) := by unfold wfDoc; infer_instance

/-- Example input of the sorting claim: three events with starts June 1
2011, none, and May 1 2011. -/
def c3Input : List Str :=
  ["BEGIN:VCALENDAR".toList, "BEGIN:VEVENT".toList,
   "DTSTART:20110601T100000Z".toList, "END:VEVENT".toList,
   "BEGIN:VEVENT".toList, "END:VEVENT".toList,
   "BEGIN:VEVENT".toList, "DTSTART:20110501T100000Z".toList, "END:VEVENT".toList,
   "END:VCALENDAR".toList]

/-- The decoded order of that example: the start-less event first, then
May 1, then June 1. -/
def c3Sorted : List Event :=
  [emptyEvent, { Start := ⟨2011, 5, 1, 10, 0, 0⟩ }, { Start := ⟨2011, 6, 1, 10, 0, 0⟩ }]

/-! Basic lemmas about the line reader. -/

theorem stripLead_of_head_ne (l : Str) (h : l.head? ≠ some ' ') : stripLead l = l := by
  cases l with
  | nil => rfl
  | cons c t =>
    have hc : c ≠ ' ' := by simpa using h
    simp [stripLead, hc]

theorem stripLead_append (l m : Str) (h : l ≠ []) :
    stripLead (l ++ m) = stripLead l ++ m := by
  cases l with
  | nil => exact absurd rfl h
  | cons c t => by_cases hc : c = ' ' <;> simp [stripLead, hc]

theorem splitFirstColon_append (k v : Str) (hk : ':' ∉ k) :
    splitFirstColon (k ++ ':' :: v) = some (k, v) := by
  induction k with
  | nil => simp [splitFirstColon]
  | cons c t ih =>
    have hc : c ≠ ':' := fun h => hk (by simp [h])
    have ht : ':' ∉ t := fun h => hk (by simp [h])
    simp [splitFirstColon, hc, ih ht]

theorem splitFirstColon_eq_none (l : Str) (h : ':' ∉ l) : splitFirstColon l = none := by
  induction l with
  | nil => rfl
  | cons c t ih =>
    have hc : c ≠ ':' := fun hh => h (by simp [hh])
    have ht : ':' ∉ t := fun hh => h (by simp [hh])
    simp [splitFirstColon, hc, ih ht]

theorem head_append_colon_ne (k v : Str) (hh : k.head? ≠ some ' ') :
    (k ++ ':' :: v).head? ≠ some ' ' := by
  cases k with
  | nil => simp
  | cons c t => simpa using hh

theorem length_append_colon (k v : Str) :
    (k ++ ':' :: v).length = k.length + 1 + v.length := by
  simp [List.length_append]
  omega

/-- Reading one well formed, unfolded logical line: the key is the text
before the first colon, the value everything after it, and exactly one
physical line is consumed. -/
theorem decodeLine_single (k v : Str) (rest : List Str)
    (hk : ':' ∉ k) (hh : k.head? ≠ some ' ')
    (hlen : k.length + 1 + v.length < lineLimit)
    (hc : contFollows rest = false) :
    decodeLine ((k ++ ':' :: v) :: rest) = .ok (k, v, rest) := by
  have hne : k ++ ':' :: v ≠ [] := by cases k <;> simp
  have hlong : ¬ lineLimit ≤ (k ++ ':' :: v).length := by
    rw [length_append_colon]; omega
  have hstrip : stripLead (k ++ ':' :: v) = k ++ ':' :: v :=
    stripLead_of_head_ne _ (head_append_colon_ne k v hh)
  have hlong2 : ¬ lineLimit ≤ k.length + (v.length + 1) := by omega
  simp [decodeLine, readFolded, hlong, hlong2, hne, hc, hstrip,
    splitFirstColon_append k v hk]

theorem decodeLine_no_colon (l : Str) (rest : List Str)
    (hne : l ≠ []) (hk : ':' ∉ l) (hh : l.head? ≠ some ' ')
    (hlen : l.length < lineLimit) (hc : contFollows rest = false) :
    decodeLine (l :: rest) = .error .noColon := by
  have hlong : ¬ lineLimit ≤ l.length := by omega
  have hstrip : stripLead l = l := stripLead_of_head_ne _ hh
  simp [decodeLine, readFolded, hlong, hne, hc, hstrip, splitFirstColon_eq_none l hk]

theorem readFolded_rest_length (lines : List Str) (buf s : Str) (rest : List Str)
    (h : readFolded lines buf = .ok (s, rest)) : rest.length < lines.length := by
  induction lines generalizing buf with
  | nil => simp [readFolded] at h
  | cons l ls ih =>
    rw [readFolded] at h
    by_cases hlong : lineLimit ≤ l.length
    · simp [hlong] at h
    · by_cases hnil : l = []
      · simp [hlong, hnil, lineLimit] at h
      · by_cases hcont : contFollows ls
        · simp [hlong, hnil, hcont] at h
          have := ih _ h
          simpa using Nat.lt_succ_of_lt this
        · simp [hlong, hnil, hcont] at h
          simp [← h.2]

theorem decodeLine_rest_length (lines : List Str) (k v : Str) (rest : List Str)
    (h : decodeLine lines = .ok (k, v, rest)) : rest.length < lines.length := by
  cases hr : readFolded lines [] with
  | error e => simp [decodeLine, hr] at h
  | ok p =>
    obtain ⟨s, rest'⟩ := p
    cases hs : splitFirstColon s with
    | none => simp [decodeLine, hr, hs] at h
    | some kv =>
      obtain ⟨k', v'⟩ := kv
      simp [decodeLine, hr, hs] at h
      obtain ⟨-, -, hrest⟩ := h
      subst hrest
      exact readFolded_rest_length lines [] s rest' hr

/-! Lemmas about the event order. -/

theorem evLe_of_eventLess (x y : Event) (h : eventLess x y = true) : evLe x y := by
  unfold eventLess at h
  by_cases hx : x.Start.isZero = true
  · exact Or.inl hx
  · by_cases hy : y.Start.isZero = true
    · simp [hx, hy] at h
    · simp [hx, hy, DateTime.before] at h
      exact Or.inr ⟨by simpa using hy, Nat.le_of_lt h⟩

theorem evLe_of_not_eventLess (x y : Event) (h : eventLess x y = false) : evLe y x := by
  unfold eventLess at h
  by_cases hx : x.Start.isZero = true
  · simp [hx] at h
  · by_cases hy : y.Start.isZero = true
    · exact Or.inl hy
    · simp [hx, hy, DateTime.before] at h
      exact Or.inr ⟨by simpa using hx, h⟩

theorem evLe_trans (a b c : Event) (h1 : evLe a b) (h2 : evLe b c) : evLe a c := by
  rcases h1 with h1 | ⟨hb, hab⟩
  · exact Or.inl h1
  · rcases h2 with h2 | ⟨hc, hbc⟩
    · rw [h2] at hb; cases hb
    · exact Or.inr ⟨hc, Nat.le_trans hab hbc⟩

theorem mem_insertEv (x z : Event) (l : List Event) (h : z ∈ insertEv x l) :
    z = x ∨ z ∈ l := by
  induction l with
  | nil => simpa [insertEv] using h
  | cons y ys ih =>
    rw [insertEv] at h
    by_cases hl : eventLess x y = true
    · rw [if_pos hl] at h
      rcases List.mem_cons.mp h with h1 | h1
      · exact Or.inl h1
      · exact Or.inr h1
    · rw [if_neg hl] at h
      rcases List.mem_cons.mp h with h1 | h1
      · exact Or.inr (List.mem_cons.mpr (Or.inl h1))
      · rcases ih h1 with h2 | h2
        · exact Or.inl h2
        · exact Or.inr (List.mem_cons.mpr (Or.inr h2))

theorem pairwise_insertEv (x : Event) (l : List Event) (h : List.Pairwise evLe l) :
    List.Pairwise evLe (insertEv x l) := by
  induction l with
  | nil => simp [insertEv]
  | cons y ys ih =>
    rw [List.pairwise_cons] at h
    obtain ⟨hy, hys⟩ := h
    rw [insertEv]
    by_cases hl : eventLess x y = true
    · rw [if_pos hl]
      refine List.Pairwise.cons ?_ (List.Pairwise.cons hy hys)
      intro z hz
      rcases List.mem_cons.mp hz with rfl | hz'
      · exact evLe_of_eventLess x z hl
      · exact evLe_trans x y z (evLe_of_eventLess x y hl) (hy z hz')
    · rw [if_neg hl]
      refine List.Pairwise.cons ?_ (ih hys)
      intro z hz
      rcases mem_insertEv x z ys hz with rfl | hz'
      · exact evLe_of_not_eventLess z y (by simpa using hl)
      · exact hy z hz'

theorem sortEvents_pairwise (l : List Event) : List.Pairwise evLe (sortEvents l) := by
  induction l with
  | nil => simp [sortEvents]
  | cons x xs ih => exact pairwise_insertEv x (sortEvents xs) ih

/-- Every successful outcome of the calendar loop carries a calendar
whose events went through sortEvents. -/
theorem decodeCalLoop_ok_sorted (fuel : Nat) (c : Option (List Event)) (lines : List Str)
    (cal : Calendar) (h : decodeCalLoop fuel c lines = .ok cal) :
    ∃ evs, cal = ⟨sortEvents evs⟩ := by
  induction fuel generalizing c lines with
  | zero => simp [decodeCalLoop] at h
  | succ f ih =>
    simp only [decodeCalLoop] at h
    split at h
    · simp at h
    · split at h
      · split at h
        · simp at h
        · split at h
          · split at h
            · simp at h
            · exact ih _ _ h
          · exact ih _ _ h
      · split at h
        · split at h
          · simp at h
          · simp only [Outcome.ok.injEq] at h
            exact ⟨_, h.symm⟩
        · exact ih _ _ h

/-- Reading one well formed, unfolded logical line, given its split. -/
theorem decodeLine_simple (l : Str) (rest : List Str) (k v : Str)
    (hne : l ≠ []) (hh : l.head? ≠ some ' ') (hlen : l.length < lineLimit)
    (hc : contFollows rest = false) (hsp : splitFirstColon l = some (k, v)) :
    decodeLine (l :: rest) = .ok (k, v, rest) := by
  have hlong : ¬ lineLimit ≤ l.length := by omega
  have hstrip : stripLead l = l := stripLead_of_head_ne l hh
  simp [decodeLine, readFolded, hlong, hne, hc, hstrip, hsp]

/-- Unpacking of the goodNonEnd test. -/
theorem goodNonEnd_spec (l : Str) (h : goodNonEnd l = true) :
    l ≠ [] ∧ l.head? ≠ some ' ' ∧ l.length < lineLimit ∧
    ∃ k v, splitFirstColon l = some (k, v) ∧ k ≠ sEND ∧
      ((k = sDTSTART ∨ k = sDTEND) → (decodeTime v).isSome = true) := by
  cases hsp : splitFirstColon l with
  | none => rw [goodNonEnd, hsp] at h; simp at h
  | some kv =>
    obtain ⟨k, v⟩ := kv
    rw [goodNonEnd, hsp] at h
    simp only [Bool.and_eq_true, Bool.not_eq_true', bne_iff_ne, ne_eq,
      decide_eq_true_eq, Bool.or_eq_true, List.isEmpty_eq_false,
      Bool.not_eq_eq_eq_not, Bool.not_true, decide_eq_false_iff_not] at h
    obtain ⟨⟨⟨hne, hh⟩, hlen⟩, hk, hdt⟩ := h
    refine ⟨hne, hh, hlen, k, v, rfl, hk, ?_⟩
    intro hor
    rcases hdt with hdt | hdt
    · exfalso
      rcases hor with hor | hor <;> simp [hor] at hdt
    · exact hdt

/-- With adequate fuel, a stream of good non-END lines keeps the event
loop running until end of input, where it fails with unexpected EOF. -/
theorem decodeEventLoop_good_eof (fuel : Nat) (e : Event) (lines : List Str)
    (hfuel : lines.length < fuel) (hgood : ∀ l ∈ lines, goodNonEnd l = true) :
    decodeEventLoop fuel e lines = .error .unexpectedEOF := by
  induction fuel generalizing e lines with
  | zero => omega
  | succ f ih =>
    cases lines with
    | nil => rfl
    | cons l rest =>
      obtain ⟨hne, hh, hlen, k, v, hsp, hkEnd, hdt⟩ :=
        goodNonEnd_spec l (hgood l (List.mem_cons_self l rest))
      have hcf : contFollows rest = false := by
        cases rest with
        | nil => rfl
        | cons r rs =>
          have hr := (goodNonEnd_spec r (hgood r (by simp))).2.1
          simp [contFollows, hr]
      have hdl : decodeLine (l :: rest) = .ok (k, v, rest) :=
        decodeLine_simple l rest k v hne hh hlen hcf hsp
      have hrest : ∀ x ∈ rest, goodNonEnd x = true :=
        fun x hx => hgood x (List.mem_cons_of_mem _ hx)
      have hflen : rest.length < f := by
        have := hfuel
        simp only [List.length_cons] at this
        omega
      simp only [decodeEventLoop, hdl]
      by_cases h1 : k = sEND
      · exact absurd h1 hkEnd
      · rw [if_neg h1]
        by_cases h2 : k = sUID
        · rw [if_pos h2]; exact ih _ _ hflen hrest
        · rw [if_neg h2]
          by_cases h3 : k = sDTSTART
          · rw [if_pos h3]
            obtain ⟨t, ht⟩ := Option.isSome_iff_exists.mp (hdt (Or.inl h3))
            rw [ht]
            exact ih _ _ hflen hrest
          · rw [if_neg h3]
            by_cases h4 : k = sDTEND
            · rw [if_pos h4]
              obtain ⟨t, ht⟩ := Option.isSome_iff_exists.mp (hdt (Or.inr h4))
              rw [ht]
              exact ih _ _ hflen hrest
            · rw [if_neg h4]
              by_cases h5 : k = sSUMMARY
              · rw [if_pos h5]; exact ih _ _ hflen hrest
              · rw [if_neg h5]
                by_cases h6 : k = sLOCATION
                · rw [if_pos h6]; exact ih _ _ hflen hrest
                · rw [if_neg h6]
                  by_cases h7 : k = sDESCRIPTION
                  · rw [if_pos h7]; exact ih _ _ hflen hrest
                  · rw [if_neg h7]; exact ih _ _ hflen hrest

/-! Lemmas about rendered calendars, for the ignored-line claim. -/

theorem contFollows_cons_of (l : Str) (ls : List Str) (h : l.head? ≠ some ' ') :
    contFollows (l :: ls) = false := by
  simp only [contFollows]
  exact decide_eq_false h

theorem eventsOf_cons_junk (k v : Str) (its : List Item) :
    eventsOf (.junk k v :: its) = eventsOf its := by
  simp [eventsOf]

theorem eventsOf_cons_event (ps : List (Str × Str)) (its : List Item) :
    eventsOf (.event ps :: its) = evalEvent ps :: eventsOf its := by
  simp [eventsOf]

theorem eventsOf_append (a b : List Item) :
    eventsOf (a ++ b) = eventsOf a ++ eventsOf b := by
  simp [eventsOf]

theorem contFollows_flatMap (its : List Item) (tail : List Str)
    (hw : wfDoc its) (htail : contFollows tail = false) :
    contFollows (its.flatMap renderItem ++ tail) = false := by
  cases its with
  | nil => simpa using htail
  | cons it its2 =>
    cases it with
    | junk k v =>
      have hh : k.head? ≠ some ' ' := (hw (.junk k v) (by simp)).1.1.2
      simp only [List.flatMap_cons, renderItem, List.cons_append, List.nil_append,
        List.singleton_append]
      exact contFollows_cons_of _ _ (head_append_colon_ne _ _ hh)
    | event ps =>
      simp only [List.flatMap_cons, renderItem, List.cons_append]
      rfl

/-- The event loop consumes a rendered block of well formed property
lines up to its END:VEVENT line and folds the assignments over the
carried event. -/
theorem decodeEventLoop_render (ps : List (Str × Str)) :
    ∀ (fuel : Nat) (e : Event) (rest : List Str),
    (∀ p ∈ ps, wfProp p) → ps.length < fuel → contFollows rest = false →
    decodeEventLoop fuel e ((ps.map fun p => renderLine p.1 p.2) ++ "END:VEVENT".toList :: rest)
      = .ok (ps.foldl (fun acc p => applyProp acc p.1 p.2) e, rest) := by
  induction ps with
  | nil =>
    intro fuel e rest hw hfuel hrest
    cases fuel with
    | zero => omega
    | succ f =>
      have hdl : decodeLine ("END:VEVENT".toList :: rest) = .ok (sEND, sVEVENT, rest) :=
        decodeLine_simple _ _ _ _ (by decide) (by decide) (by decide) hrest (by decide)
      simp only [List.map_nil, List.nil_append, List.foldl_nil, decodeEventLoop, hdl]
      rfl
  | cons p ps ih =>
    obtain ⟨k, v⟩ := p
    intro fuel e rest hw hfuel hrest
    cases fuel with
    | zero => omega
    | succ f =>
      obtain ⟨hwl, hkend, hdt⟩ := hw ⟨k, v⟩ (by simp)
      have hw' : ∀ q ∈ ps, wfProp q := fun q hq => hw q (by simp [hq])
      have hfuel' : ps.length < f := by simp at hfuel; omega
      have hcf : contFollows ((ps.map fun p => renderLine p.1 p.2)
          ++ "END:VEVENT".toList :: rest) = false := by
        cases ps with
        | nil => rfl
        | cons q qs =>
          have hq : q.1.head? ≠ some ' ' := (hw q (by simp)).1.1.2
          simp only [List.map_cons, List.cons_append]
          exact contFollows_cons_of _ _ (head_append_colon_ne _ _ hq)
      have hdl : decodeLine (renderLine k v :: ((ps.map fun p => renderLine p.1 p.2)
          ++ "END:VEVENT".toList :: rest))
          = .ok (k, v, (ps.map fun p => renderLine p.1 p.2) ++ "END:VEVENT".toList :: rest) :=
        decodeLine_single k v _ hwl.1.1 hwl.1.2 hwl.2 hcf
      simp only [List.map_cons, List.cons_append, List.foldl_cons, decodeEventLoop, hdl]
      by_cases h1 : k = sEND
      · exact absurd h1 hkend
      by_cases h2 : k = sUID
      · subst h2
        exact ih f { e with UID := v } rest hw' hfuel' hrest
      by_cases h3 : k = sDTSTART
      · subst h3
        obtain ⟨t, ht⟩ := Option.isSome_iff_exists.mp (hdt (Or.inl rfl))
        have ha : applyProp e sDTSTART v = { e with Start := t } := by
          have h0 : applyProp e sDTSTART v = (match decodeTime v with
              | none => e
              | some u => { e with Start := u }) := rfl
          rw [h0, ht]
        rw [ht, ha]
        exact ih f { e with Start := t } rest hw' hfuel' hrest
      by_cases h4 : k = sDTEND
      · subst h4
        obtain ⟨t, ht⟩ := Option.isSome_iff_exists.mp (hdt (Or.inr rfl))
        have ha : applyProp e sDTEND v = { e with End := t } := by
          have h0 : applyProp e sDTEND v = (match decodeTime v with
              | none => e
              | some u => { e with End := u }) := rfl
          rw [h0, ht]
        rw [ht, ha]
        exact ih f { e with End := t } rest hw' hfuel' hrest
      by_cases h5 : k = sSUMMARY
      · subst h5
        exact ih f { e with Summary := v } rest hw' hfuel' hrest
      by_cases h6 : k = sLOCATION
      · subst h6
        exact ih f { e with Location := v } rest hw' hfuel' hrest
      by_cases h7 : k = sDESCRIPTION
      · subst h7
        exact ih f { e with Description := v } rest hw' hfuel' hrest
      rw [if_neg h1, if_neg h2, if_neg h3, if_neg h4, if_neg h5, if_neg h6, if_neg h7]
      have ha : applyProp e k v = e := by
        rw [applyProp, if_neg h2, if_neg h3, if_neg h4, if_neg h5, if_neg h6, if_neg h7]
      rw [ha]
      exact ih f e rest hw' hfuel' hrest

/-- The calendar loop consumes a rendered body of well formed items up
to the END:VCALENDAR line, ignoring junk lines and collecting one event
per block, and returns the sorted events. -/
theorem decodeCalLoop_render (items : List Item) :
    ∀ (fuel : Nat) (evs : List Event) (rest : List Str),
    wfDoc items → items.length < fuel → contFollows rest = false →
    decodeCalLoop fuel (some evs) (items.flatMap renderItem ++ "END:VCALENDAR".toList :: rest)
      = .ok ⟨sortEvents (evs ++ eventsOf items)⟩ := by
  induction items with
  | nil =>
    intro fuel evs rest hw hfuel hrest
    cases fuel with
    | zero => omega
    | succ f =>
      have hdl : decodeLine ("END:VCALENDAR".toList :: rest) = .ok (sEND, sVCALENDAR, rest) :=
        decodeLine_simple _ _ _ _ (by decide) (by decide) (by decide) hrest (by decide)
      simp only [List.flatMap_nil, List.nil_append, decodeCalLoop, hdl]
      have hev : eventsOf ([] : List Item) = [] := rfl
      rw [hev, List.append_nil]
      rfl
  | cons it its ih =>
    intro fuel evs rest hw hfuel hrest
    cases fuel with
    | zero => omega
    | succ f =>
      have hw' : wfDoc its := fun x hx => hw x (by simp [hx])
      have hfuel' : its.length < f := by simp at hfuel; omega
      have hcf : contFollows (its.flatMap renderItem ++ "END:VCALENDAR".toList :: rest)
          = false := contFollows_flatMap its _ hw' rfl
      cases it with
      | junk k v =>
        obtain ⟨hwl, hkb, hke⟩ := hw (.junk k v) (by simp)
        have hdl : decodeLine (renderLine k v ::
            (its.flatMap renderItem ++ "END:VCALENDAR".toList :: rest))
            = .ok (k, v, its.flatMap renderItem ++ "END:VCALENDAR".toList :: rest) :=
          decodeLine_single k v _ hwl.1.1 hwl.1.2 hwl.2 hcf
        have hstep : (Item.junk k v :: its).flatMap renderItem
              ++ "END:VCALENDAR".toList :: rest
            = renderLine k v :: (its.flatMap renderItem ++ "END:VCALENDAR".toList :: rest) := by
          simp [renderItem]
        rw [hstep]
        simp only [decodeCalLoop, hdl]
        rw [if_neg hkb, if_neg (fun hc => hke hc.1), eventsOf_cons_junk]
        exact ih f evs rest hw' hfuel' hrest
      | event ps =>
        have hwps : ∀ p ∈ ps, wfProp p := hw (.event ps) (by simp)
        have hcf2 : contFollows ((ps.map fun p => renderLine p.1 p.2)
            ++ "END:VEVENT".toList
              :: (its.flatMap renderItem ++ "END:VCALENDAR".toList :: rest)) = false := by
          cases ps with
          | nil => rfl
          | cons q qs =>
            have hq : q.1.head? ≠ some ' ' := (hwps q (by simp)).1.1.2
            simp only [List.map_cons, List.cons_append]
            exact contFollows_cons_of _ _ (head_append_colon_ne _ _ hq)
        have hdl : decodeLine ("BEGIN:VEVENT".toList ::
            ((ps.map fun p => renderLine p.1 p.2) ++ "END:VEVENT".toList
              :: (its.flatMap renderItem ++ "END:VCALENDAR".toList :: rest)))
            = .ok (sBEGIN, sVEVENT,
                (ps.map fun p => renderLine p.1 p.2) ++ "END:VEVENT".toList
                  :: (its.flatMap renderItem ++ "END:VCALENDAR".toList :: rest)) :=
          decodeLine_simple _ _ _ _ (by decide) (by decide) (by decide) hcf2 (by decide)
        have hev : decodeEvent ((ps.map fun p => renderLine p.1 p.2) ++ "END:VEVENT".toList
            :: (its.flatMap renderItem ++ "END:VCALENDAR".toList :: rest))
            = .ok (evalEvent ps, its.flatMap renderItem ++ "END:VCALENDAR".toList :: rest) := by
          have hlen : ps.length < ((ps.map fun p => renderLine p.1 p.2) ++ "END:VEVENT".toList
              :: (its.flatMap renderItem ++ "END:VCALENDAR".toList :: rest)).length + 1 := by
            simp only [List.length_append, List.length_map, List.length_cons]
            omega
          exact decodeEventLoop_render ps _ emptyEvent _ hwps hlen hcf
        have hstep : (Item.event ps :: its).flatMap renderItem
              ++ "END:VCALENDAR".toList :: rest
            = "BEGIN:VEVENT".toList ::
              ((ps.map fun p => renderLine p.1 p.2) ++ "END:VEVENT".toList
                :: (its.flatMap renderItem ++ "END:VCALENDAR".toList :: rest)) := by
          simp [renderItem]
        rw [hstep]
        simp only [decodeCalLoop, hdl, hev]
        rw [eventsOf_cons_event,
          show evs ++ evalEvent ps :: eventsOf its = (evs ++ [evalEvent ps]) ++ eventsOf its
            by simp]
        exact ih f (evs ++ [evalEvent ps]) _ hw' hfuel' hrest

/-- Helper bound: every rendered item spans at least one line. -/
theorem length_le_flatMap_renderItem (items : List Item) :
    items.length ≤ (items.flatMap renderItem).length := by
  induction items with
  | nil => simp
  | cons it its ih =>
    cases it with
    | junk k v =>
      simp only [List.flatMap_cons, renderItem, List.length_append, List.length_cons,
        List.length_singleton, List.length_nil]
      omega
    | event ps =>
      simp only [List.flatMap_cons, renderItem, List.length_append, List.length_cons,
        List.length_map, List.length_nil]
      omega

/-- Decoding a rendered well formed calendar yields exactly the sorted
events of its blocks. -/
theorem Decode_render (items : List Item) (hw : wfDoc items) :
    Decode (renderDoc items) = .ok ⟨sortEvents (eventsOf items)⟩ := by
  have hb := length_le_flatMap_renderItem items
  have hcf : contFollows (items.flatMap renderItem ++ ["END:VCALENDAR".toList]) = false :=
    contFollows_flatMap items _ hw rfl
  have hdl : decodeLine ("BEGIN:VCALENDAR".toList ::
      (items.flatMap renderItem ++ ["END:VCALENDAR".toList]))
      = .ok (sBEGIN, sVCALENDAR, items.flatMap renderItem ++ ["END:VCALENDAR".toList]) :=
    decodeLine_simple _ _ _ _ (by decide) (by decide) (by decide) hcf (by decide)
  have hmain := decodeCalLoop_render items
    ((items.flatMap renderItem ++ ["END:VCALENDAR".toList]).length + 1) [] [] hw
    (by simp only [List.length_append, List.length_cons, List.length_nil]; omega) rfl
  simp only [Decode, renderDoc, List.length_cons]
  simp only [decodeCalLoop, hdl]
  exact hmain

theorem mem_insertAt {α : Type} (x y : α) (i : Nat) (l : List α)
    (h : y ∈ insertAt x i l) : y = x ∨ y ∈ l := by
  induction l generalizing i with
  | nil =>
    cases i <;> simp only [insertAt, List.mem_singleton, List.mem_cons,
      List.not_mem_nil, or_false] at h <;> exact Or.inl h
  | cons a as ih =>
    cases i with
    | zero =>
      rcases List.mem_cons.mp h with h1 | h1
      · exact Or.inl h1
      · exact Or.inr h1
    | succ n =>
      have h' : y ∈ a :: insertAt x n as := h
      rcases List.mem_cons.mp h' with h1 | h1
      · exact Or.inr (List.mem_cons.mpr (Or.inl h1))
      · rcases ih n h1 with h2 | h2
        · exact Or.inl h2
        · exact Or.inr (List.mem_cons.mpr (Or.inr h2))

theorem eventsOf_insertAt_junk (k v : Str) (i : Nat) (items : List Item) :
    eventsOf (insertAt (Item.junk k v) i items) = eventsOf items := by
  induction items generalizing i with
  | nil => cases i <;> simp [insertAt, eventsOf]
  | cons it its ih =>
    cases i with
    | zero =>
      show eventsOf (Item.junk k v :: it :: its) = eventsOf (it :: its)
      rw [eventsOf_cons_junk]
    | succ n =>
      show eventsOf (it :: insertAt (Item.junk k v) n its) = eventsOf (it :: its)
      cases it with
      | junk k2 v2 => rw [eventsOf_cons_junk, eventsOf_cons_junk, ih]
      | event ps => rw [eventsOf_cons_event, eventsOf_cons_event, ih]

theorem foldl_insertAt_id {α β : Type} (step : β → α → β) (x : α)
    (hx : ∀ b, step b x = b) (i : Nat) (l : List α) (b : β) :
    (insertAt x i l).foldl step b = l.foldl step b := by
  induction l generalizing i b with
  | nil => cases i <;> simp [insertAt, hx]
  | cons a as ih =>
    cases i with
    | zero =>
      show ((x :: a :: as).foldl step b) = _
      simp only [List.foldl_cons, hx]
    | succ n =>
      show ((a :: insertAt x n as).foldl step b) = _
      simp only [List.foldl_cons]
      exact ih n (step b a)

/-! Claim theorems. -/

/-- C1: the claim states that an input whose first meaningful logical
line is not BEGIN:VCALENDAR always makes Decode return a
StructuralError with a null Calendar and fail in no other way.  The
code does return the missing-BEGIN error for a first BEGIN line with
another value, and the unexpected-EOF error when only ignorable lines
precede end of input; but when an END:VCALENDAR line arrives before any
BEGIN line, the loop breaks with c still nil and sort.Sort dereferences
the nil pointer c.Event, a runtime panic instead of an error return.
This theorem evaluates the decoder at two such inputs, exhibiting the
panic. -/
theorem C1_theorem :
    Decode ["END:VCALENDAR".toList] = .panicNil
    ∧ Decode ["FOO:BAR".toList, "END:VCALENDAR".toList] = .panicNil :=
  ⟨rfl, rfl⟩

/-- C2 counterexample: decoding an event whose DTSTART is the literal
zero timestamp 00010101T000000Z yields exactly the same calendar value
as decoding an event with no DTSTART line at all, so the two are not
distinguishable in the returned data, and hence not in the sorting
rule either; the claimed distinguishable unset state does not exist. -/
theorem C2_counterexample :
    Decode ["BEGIN:VCALENDAR".toList, "BEGIN:VEVENT".toList,
        "DTSTART:00010101T000000Z".toList, "END:VEVENT".toList,
        "END:VCALENDAR".toList]
      = Decode ["BEGIN:VCALENDAR".toList, "BEGIN:VEVENT".toList,
        "END:VEVENT".toList, "END:VCALENDAR".toList]
    ∧ Decode ["BEGIN:VCALENDAR".toList, "BEGIN:VEVENT".toList,
        "END:VEVENT".toList, "END:VCALENDAR".toList] = .ok ⟨[emptyEvent]⟩ :=
  ⟨rfl, rfl⟩

/-- C2 amended: an absent DTSTART is represented by the zero time.Time
sentinel, the very value that the literal timestamp 00010101T000000Z
parses to; an event without DTSTART and one whose DTSTART parsed to
that zero timestamp are therefore identical in the returned data and
are treated identically by the sort comparator (both IsZero). -/
theorem C2_theorem :
    decodeTime "00010101T000000Z".toList = some zeroTime
    ∧ emptyEvent.Start = zeroTime
    ∧ zeroTime.isZero = true
    ∧ decodeEvent ["DTSTART:00010101T000000Z".toList, "END:VEVENT".toList]
      = decodeEvent ["END:VEVENT".toList] :=
  ⟨rfl, rfl, rfl, rfl⟩

/-- C3: whenever Decode succeeds, the returned event sequence is
pairwise ordered: an earlier event has an unset (zero) Start, or both
have set Starts in nondecreasing absolute-seconds order; consequently
no event with a set Start precedes one without, and the order among the
start-less events is unconstrained. -/
theorem C3_theorem (lines : List Str) (cal : Calendar)
    (h : Decode lines = .ok cal) : List.Pairwise evLe cal.events := by
  obtain ⟨evs, rfl⟩ := decodeCalLoop_ok_sorted _ _ _ _ h
  exact sortEvents_pairwise evs

/-- C3 witness: the example of the claim, three events with starts June
1 2011, none, and May 1 2011, decodes to the order no-start, May 1,
June 1, and the theorem applies to it. -/
theorem C3_witness :
    Decode c3Input = .ok ⟨c3Sorted⟩ ∧ List.Pairwise evLe c3Sorted :=
  ⟨rfl, C3_theorem c3Input ⟨c3Sorted⟩ rfl⟩

/-- C4 counterexample: the example of the claim fails on the code: the
single leading space of the continuation line is stripped, so the
physical lines SUMMARY:Hello and space-World decode to the value
HelloWorld, not the claimed Hello World.  The universally quantified
part also fails at the reader buffer: a folded pair whose unfolded
form reaches 4096 bytes decodes folded but fails with the long-line
error unfolded. -/
theorem C4_counterexample :
    (decodeLine ["SUMMARY:Hello".toList, " World".toList]
       = .ok ("SUMMARY".toList, "HelloWorld".toList, [])
     ∧ decodeLine ["SUMMARY:Hello".toList, " World".toList]
       ≠ .ok ("SUMMARY".toList, "Hello World".toList, []))
    ∧ decodeLine [('A' :: ':' :: List.replicate 4093 'a'), [' ', 'b']]
        = .ok (['A'], List.replicate 4093 'a' ++ ['b'], [])
    ∧ decodeLine [('A' :: ':' :: (List.replicate 4093 'a' ++ ['b']))]
        = .error .longLine := by
  refine ⟨⟨rfl, ?_⟩, ?_, ?_⟩
  · intro h
    have h0 : decodeLine ["SUMMARY:Hello".toList, " World".toList]
        = .ok ("SUMMARY".toList, "HelloWorld".toList, []) := rfl
    rw [h0] at h
    simp only [Except.ok.injEq, Prod.mk.injEq] at h
    exact absurd h.2.1 (by decide)
  · have hA : ('A' : Char) ≠ ':' := by decide
    have hlen1 : ('A' :: ':' :: List.replicate 4093 'a').length = 4095 := by
      rw [List.length_cons, List.length_cons, List.length_replicate]
    have hl1 : ¬ lineLimit ≤ ('A' :: ':' :: List.replicate 4093 'a').length := by
      rw [hlen1]; decide
    have hl2 : ¬ lineLimit ≤ ([' ', 'b'] : Str).length := by decide
    have hne1 : ('A' :: ':' :: List.replicate 4093 'a') ≠ [] := List.cons_ne_nil _ _
    have hne2 : ([' ', 'b'] : Str) ≠ [] := List.cons_ne_nil _ _
    have hs1 : stripLead ('A' :: ':' :: List.replicate 4093 'a')
        = 'A' :: ':' :: List.replicate 4093 'a' := rfl
    have hs2 : stripLead [' ', 'b'] = ['b'] := rfl
    have hc1 : contFollows [[' ', 'b']] = true := rfl
    have hc2 : contFollows ([] : List Str) = false := rfl
    have hsp : splitFirstColon ('A' :: ':' :: (List.replicate 4093 'a' ++ ['b']))
        = some (['A'], List.replicate 4093 'a' ++ ['b']) := by
      rw [splitFirstColon, if_neg hA, splitFirstColon, if_pos rfl]
    simp only [decodeLine, readFolded, hl1, hl2, hne1, hne2, hs1, hs2, hc1, hc2,
      ite_true, ite_false, if_true, if_false, List.nil_append, List.cons_append,
      List.append_assoc, ne_eq, not_false_eq_true, if_neg, Bool.false_eq_true,
      hsp]
  · have hl3 : lineLimit ≤ ('A' :: ':' :: (List.replicate 4093 'a' ++ ['b'])).length := by
      rw [List.length_cons, List.length_cons, List.length_append, List.length_replicate]
      decide
    simp only [decodeLine, readFolded, hl3, ite_true, if_true]

/-- C4 amended: for every key and every value split whose unfolded
logical line is below the 4096-byte reader buffer, decoding the two
physical lines K:V1 and space-V2 yields exactly the same key, value and
remaining stream, and hence the same decoded calendar, as the single
physical line K:V1V2; the continuation space is removed, so
SUMMARY:Hello followed by space-World decodes like SUMMARY:HelloWorld
(value HelloWorld). -/
theorem C4_theorem (k v1 v2 : Str) (rest : List Str)
    (hlen : k.length + 1 + v1.length + v2.length < lineLimit) :
    decodeLine ((k ++ ':' :: v1) :: (' ' :: v2) :: rest)
      = decodeLine ((k ++ ':' :: (v1 ++ v2)) :: rest) := by
  have h1' : k ++ ':' :: v1 ≠ [] := by cases k <;> simp
  have heq : readFolded ((k ++ ':' :: v1) :: (' ' :: v2) :: rest) []
      = readFolded ((k ++ ':' :: (v1 ++ v2)) :: rest) [] := by
    have h1n : ¬ lineLimit ≤ k.length + (v1.length + 1) := by omega
    have h2n : ¬ lineLimit ≤ v2.length + 1 := by omega
    have h3n : ¬ lineLimit ≤ k.length + (v1.length + v2.length + 1) := by omega
    have h3' : k ++ ':' :: (v1 ++ v2) ≠ [] := by cases k <;> simp
    have hcf : contFollows ((' ' :: v2) :: rest) = true := rfl
    have hs1 : stripLead (' ' :: v2) = v2 := rfl
    have hstrip : stripLead (k ++ ':' :: (v1 ++ v2)) = stripLead (k ++ ':' :: v1) ++ v2 := by
      have hassoc : k ++ ':' :: (v1 ++ v2) = (k ++ ':' :: v1) ++ v2 := by simp
      rw [hassoc, stripLead_append _ _ h1']
    simp [readFolded, h1n, h2n, h3n, h1', h3', hcf, hs1, hstrip]
  simp only [decodeLine, heq]

/-- C4 witness: the corrected example through the amended theorem. -/
theorem C4_witness :
    "SUMMARY".toList.length + 1 + "Hello".toList.length + "World".toList.length < lineLimit
    ∧ decodeLine [("SUMMARY".toList ++ ':' :: "Hello".toList), (' ' :: "World".toList)]
      = decodeLine [("SUMMARY".toList ++ ':' :: ("Hello".toList ++ "World".toList))] :=
  ⟨by decide, C4_theorem "SUMMARY".toList "Hello".toList "World".toList [] (by decide)⟩

/-- C5: when the event decoder meets a DTSTART or DTEND logical line
whose value does not parse under the layout YYYYMMDDThhmmssZ, it
aborts at once with the bad-time error (the ValueFormatError) whatever
event state it carries and whatever lines follow, so the field is never
skipped and no event of the stream survives; and the calendar loop
turns any event-decoder error into the failure of the whole Decode,
whose failure outcome carries no Calendar. -/
theorem C5_theorem :
    (∀ (fuel : Nat) (e : Event) (lines : List Str) (v : Str) (rest : List Str),
        decodeLine lines = .ok (sDTSTART, v, rest) → decodeTime v = none →
        decodeEventLoop (fuel + 1) e lines = .error .badTime)
    ∧ (∀ (fuel : Nat) (e : Event) (lines : List Str) (v : Str) (rest : List Str),
        decodeLine lines = .ok (sDTEND, v, rest) → decodeTime v = none →
        decodeEventLoop (fuel + 1) e lines = .error .badTime)
    ∧ (∀ (fuel : Nat) (evs : List Event) (lines rest : List Str) (err : DecodeErr),
        decodeLine lines = .ok (sBEGIN, sVEVENT, rest) →
        decodeEvent rest = .error err →
        decodeCalLoop (fuel + 1) (some evs) lines = .fail err) := by
  refine ⟨?_, ?_, ?_⟩
  · intro fuel e lines v rest h hv
    simp only [decodeEventLoop, h, hv]
    rfl
  · intro fuel e lines v rest h hv
    simp only [decodeEventLoop, h, hv]
    rfl
  · intro fuel evs lines rest err h hde
    simp only [decodeCalLoop, h, decodeEvent] at *
    simp only [hde]
    rfl

/-- C5 witness: the example value of the claim, 20110601T1000Z with
missing seconds, fails to parse, aborts the event decoder with the
bad-time error, and fails the whole Decode. -/
theorem C5_witness :
    decodeTime "20110601T1000Z".toList = none
    ∧ decodeEventLoop 2 emptyEvent ["DTSTART:20110601T1000Z".toList] = .error .badTime
    ∧ Decode ["BEGIN:VCALENDAR".toList, "BEGIN:VEVENT".toList,
        "DTSTART:20110601T1000Z".toList] = .fail .badTime := by
  refine ⟨rfl, ?_, ?_⟩
  · exact C5_theorem.1 1 emptyEvent ["DTSTART:20110601T1000Z".toList]
      "20110601T1000Z".toList [] rfl rfl
  · show decodeCalLoop 3 (some [])
      ["BEGIN:VEVENT".toList, "DTSTART:20110601T1000Z".toList] = .fail .badTime
    exact C5_theorem.2.2 2 [] ["BEGIN:VEVENT".toList, "DTSTART:20110601T1000Z".toList]
      ["DTSTART:20110601T1000Z".toList] .badTime rfl rfl

/-- C6: a stream that ends while a VEVENT block is still open, that is
whose remaining lines are all consumable non-END lines when the block
opens, makes the event decoder fail with the unexpected-EOF error, and
the whole Decode fail the same way: the failure outcome carries no
partial Event and no partial Calendar. -/
theorem C6_theorem :
    (∀ (lines : List Str), (∀ l ∈ lines, goodNonEnd l = true) →
        decodeEvent lines = .error .unexpectedEOF)
    ∧ (∀ (lines : List Str), (∀ l ∈ lines, goodNonEnd l = true) →
        Decode ("BEGIN:VCALENDAR".toList :: "BEGIN:VEVENT".toList :: lines)
          = .fail .unexpectedEOF) := by
  constructor
  · intro lines hgood
    exact decodeEventLoop_good_eof _ _ _ (Nat.lt_succ_self _) hgood
  · intro lines hgood
    have hcf : contFollows lines = false := by
      cases lines with
      | nil => rfl
      | cons r rs =>
        have hr := (goodNonEnd_spec r (hgood r (by simp))).2.1
        simp [contFollows, hr]
    have h2 : decodeLine ("BEGIN:VEVENT".toList :: lines) = .ok (sBEGIN, sVEVENT, lines) :=
      decodeLine_simple _ _ _ _ (by decide) (by decide) (by decide) hcf (by decide)
    have hde : decodeEvent lines = .error .unexpectedEOF :=
      decodeEventLoop_good_eof _ _ _ (Nat.lt_succ_self _) hgood
    show decodeCalLoop (lines.length + 2) (some []) ("BEGIN:VEVENT".toList :: lines)
        = .fail .unexpectedEOF
    simp only [decodeCalLoop, h2, hde]
    rfl

/-- C6 witness: a calendar that opens an event and ends after one good
property line fails as a whole with unexpected EOF. -/
theorem C6_witness :
    goodNonEnd "SUMMARY:party".toList = true
    ∧ decodeEvent ["SUMMARY:party".toList] = .error .unexpectedEOF
    ∧ Decode ["BEGIN:VCALENDAR".toList, "BEGIN:VEVENT".toList, "SUMMARY:party".toList]
      = .fail .unexpectedEOF := by
  refine ⟨by decide, ?_, ?_⟩
  · exact C6_theorem.1 ["SUMMARY:party".toList] (by decide)
  · exact C6_theorem.2 ["SUMMARY:party".toList] (by decide)

/-- C7: for every finished logical line holding a colon the reader
returns the text before the first colon as the key and the whole
remainder, later colons included, as the value; a logical line without
a colon fails with the bad-line error.  The line is stated as one
unfolded physical line: nonempty, no leading space, below the reader
buffer, not followed by a continuation line. -/
theorem C7_theorem :
    (∀ (k v : Str) (rest : List Str), ':' ∉ k → k.head? ≠ some ' ' →
        k.length + 1 + v.length < lineLimit → contFollows rest = false →
        decodeLine ((k ++ ':' :: v) :: rest) = .ok (k, v, rest))
    ∧ (∀ (l : Str) (rest : List Str), l ≠ [] → ':' ∉ l → l.head? ≠ some ' ' →
        l.length < lineLimit → contFollows rest = false →
        decodeLine (l :: rest) = .error .noColon) :=
  ⟨decodeLine_single, decodeLine_no_colon⟩

/-- C7 witness: a value with further colons is kept whole, and the
GARBAGE line of the claim fails with the bad-line error. -/
theorem C7_witness :
    decodeLine ["X:a:b".toList] = .ok ("X".toList, "a:b".toList, [])
    ∧ decodeLine ["GARBAGE".toList] = .error .noColon :=
  ⟨C7_theorem.1 "X".toList "a:b".toList [] (by decide) (by decide) (by decide) rfl,
   C7_theorem.2 "GARBAGE".toList [] (by decide) (by decide) (by decide) (by decide) rfl⟩

/-- C8: unrecognized properties are ignored.  Inserting one well formed
logical line with an unrecognized key, at any item position of a well
formed calendar body when the key is neither BEGIN nor END, at any
position inside any event block when the key is none of the seven the
event switch handles, or even ahead of the BEGIN:VCALENDAR envelope
line, leaves the decoded Calendar exactly unchanged. -/
theorem C8_theorem :
    (∀ (items : List Item) (i : Nat) (k v : Str), wfDoc items → wfJunkItem k v →
        Decode (renderDoc (insertAt (Item.junk k v) i items)) = Decode (renderDoc items))
    ∧ (∀ (pre post : List Item) (ps : List (Str × Str)) (i : Nat) (k v : Str),
        wfDoc (pre ++ Item.event ps :: post) → wfEventJunk k v →
        Decode (renderDoc (pre ++ Item.event (insertAt (k, v) i ps) :: post))
          = Decode (renderDoc (pre ++ Item.event ps :: post)))
    ∧ (∀ (k v : Str) (lines : List Str), wfJunkItem k v → contFollows lines = false →
        Decode (renderLine k v :: lines) = Decode lines) := by
  refine ⟨?_, ?_, ?_⟩
  · intro items i k v hw hj
    have hw2 : wfDoc (insertAt (Item.junk k v) i items) := by
      intro it hit
      rcases mem_insertAt _ _ _ _ hit with rfl | hmem
      · exact hj
      · exact hw it hmem
    rw [Decode_render _ hw2, Decode_render _ hw, eventsOf_insertAt_junk]
  · intro pre post ps i k v hw hj
    obtain ⟨hwl, hkE, hkU, hkDS, hkDE, hkSu, hkLo, hkDe⟩ := hj
    have hid : ∀ e, applyProp e k v = e := fun e => by
      rw [applyProp, if_neg hkU, if_neg hkDS, if_neg hkDE, if_neg hkSu,
        if_neg hkLo, if_neg hkDe]
    have hwev : ∀ p ∈ ps, wfProp p := hw (.event ps) (by simp)
    have hw2 : wfDoc (pre ++ Item.event (insertAt (k, v) i ps) :: post) := by
      intro it hit
      rcases List.mem_append.mp hit with hpre | hit2
      · exact hw it (List.mem_append.mpr (Or.inl hpre))
      · rcases List.mem_cons.mp hit2 with rfl | hpost
        · intro p hp
          rcases mem_insertAt _ _ _ _ hp with rfl | hmem
          · exact ⟨hwl, hkE, fun hor => by
              rcases hor with hor | hor
              · exact absurd hor hkDS
              · exact absurd hor hkDE⟩
          · exact hwev p hmem
        · exact hw it (List.mem_append.mpr (Or.inr (List.mem_cons.mpr (Or.inr hpost))))
    have heq : evalEvent (insertAt (k, v) i ps) = evalEvent ps := by
      unfold evalEvent
      exact foldl_insertAt_id (fun e p => applyProp e p.1 p.2) (k, v)
        (fun b => hid b) i ps emptyEvent
    rw [Decode_render _ hw2, Decode_render _ hw, eventsOf_append, eventsOf_append,
      eventsOf_cons_event, eventsOf_cons_event, heq]
  · intro k v lines hj hcont
    obtain ⟨hwl, hkb, hke⟩ := hj
    have hdl : decodeLine (renderLine k v :: lines) = .ok (k, v, lines) :=
      decodeLine_single k v _ hwl.1.1 hwl.1.2 hwl.2 hcont
    simp only [Decode, List.length_cons]
    simp only [decodeCalLoop, hdl]
    rw [if_neg hkb, if_neg (fun hc => hke hc.1)]

/-- C8 witness: a VERSION line ahead of an event block and an X-COLOR
line inside it both leave the decoded calendar unchanged. -/
theorem C8_witness :
    Decode (renderDoc (insertAt (Item.junk "VERSION".toList "2.0".toList) 0
        [Item.event [("SUMMARY".toList, "x".toList)]]))
      = Decode (renderDoc [Item.event [("SUMMARY".toList, "x".toList)]])
    ∧ Decode (renderDoc ([] ++ Item.event (insertAt ("X-COLOR".toList, "red".toList) 1
        [("SUMMARY".toList, "x".toList)]) :: []))
      = Decode (renderDoc ([] ++ Item.event [("SUMMARY".toList, "x".toList)] :: [])) :=
  ⟨C8_theorem.1 [Item.event [("SUMMARY".toList, "x".toList)]] 0
      "VERSION".toList "2.0".toList (by decide) (by decide),
   C8_theorem.2.1 [] [] [("SUMMARY".toList, "x".toList)] 1
      "X-COLOR".toList "red".toList (by decide) (by decide)⟩

/-- C9: inside an open VEVENT block a BEGIN:VEVENT logical line matches
no case of the switch and is skipped, the event under construction and
the stream position aside from that line unchanged; hence a nested
block contributes its property lines to the same event (overwriting
earlier values field by field) and the first END:VEVENT finalizes the
single merged event, as the concrete nested input shows: one event,
with the inner SUMMARY overwriting the outer one. -/
theorem C9_theorem :
    (∀ (fuel : Nat) (e : Event) (lines rest : List Str),
        decodeLine lines = .ok (sBEGIN, sVEVENT, rest) →
        decodeEventLoop (fuel + 1) e lines = decodeEventLoop fuel e rest)
    ∧ Decode ["BEGIN:VCALENDAR".toList, "BEGIN:VEVENT".toList, "SUMMARY:outer".toList,
        "BEGIN:VEVENT".toList, "SUMMARY:inner".toList, "END:VEVENT".toList,
        "END:VCALENDAR".toList]
      = .ok ⟨[{ Summary := "inner".toList }]⟩ := by
  constructor
  · intro fuel e lines rest h
    simp only [decodeEventLoop, h]
    rfl
  · rfl

/-- C9 witness: the skip step applied at a concrete nested BEGIN line. -/
theorem C9_witness :
    decodeEventLoop 2 emptyEvent ["BEGIN:VEVENT".toList, "END:VEVENT".toList]
      = decodeEventLoop 1 emptyEvent ["END:VEVENT".toList] :=
  C9_theorem.1 1 emptyEvent ["BEGIN:VEVENT".toList, "END:VEVENT".toList]
    ["END:VEVENT".toList] rfl

/-- C10: the reader strips a single leading space from every physical
line it reads, not only from continuation lines: prefixing a space to
a line that starts no continuation leaves decoding unchanged, and in
particular a stream whose very first physical line is
space-BEGIN:VCALENDAR decodes as a normal calendar. -/
theorem C10_theorem :
    (∀ (l : Str) (rest : List Str), l ≠ [] → l.head? ≠ some ' ' →
        l.length + 1 < lineLimit →
        decodeLine ((' ' :: l) :: rest) = decodeLine (l :: rest))
    ∧ Decode [" BEGIN:VCALENDAR".toList, "END:VCALENDAR".toList] = .ok ⟨[]⟩ := by
  constructor
  · intro l rest hne hh hlen
    have heq : readFolded ((' ' :: l) :: rest) [] = readFolded (l :: rest) [] := by
      have h1n : ¬ lineLimit ≤ l.length + 1 := by omega
      have h2 : ¬ lineLimit ≤ l.length := by omega
      have hsl : stripLead l = l := stripLead_of_head_ne l hh
      have hss : stripLead (' ' :: l) = l := rfl
      have hne2 : (' ' :: l) ≠ ([] : Str) := by simp
      simp [readFolded, h1n, h2, hsl, hss, hne, hne2]
    simp only [decodeLine, heq]
  · rfl

/-- C10 witness: the strip equality at the first line of the claim. -/
theorem C10_witness :
    decodeLine [(' ' :: "BEGIN:VCALENDAR".toList), "END:VCALENDAR".toList]
      = decodeLine ["BEGIN:VCALENDAR".toList, "END:VCALENDAR".toList] :=
  C10_theorem.1 "BEGIN:VCALENDAR".toList ["END:VCALENDAR".toList]
    (by decide) (by decide) (by decide)

end Ics
